import Mathlib

/-!
libbitcoin: wire-protocol framing, compact sizes and output selection.

A shallow embedding of `include/bitcoin/bitcoin/message/messages.hpp` and
`include/bitcoin/bitcoin/wallet/select_outputs.hpp`.

Bytes are natural numbers below 256 and a `data_chunk` is a list of bytes.
Machine integers are natural numbers; a value stored in a fixed-width field is
reduced modulo the width of the field at the point where it is written.
Operations that can fail return `Except code`.

`message::serialize` is defined in `messages.hpp` and is translated from it.
Its collaborators (`heading`, `bitcoin_checksum`, `safe_unsigned`, the message
classes) and the bodies of `variable_uint_size` and `select_outputs::select`
live in files that are not part of the two headers; each such definition below
says so in its documentation.
-/

set_option autoImplicit false

namespace libbitcoin

/-- Error results of the codec layer (section 7 of the specification). -/
inductive code where
  | TruncatedInput
  | ChecksumMismatch
  | InvalidCommand
  | InsufficientVersion
  | OversizedCount
  | PayloadTooLarge
  | InvalidPayload
  deriving DecidableEq

/-- A byte buffer (`data_chunk` of `utility/data.hpp`): a list of bytes. -/
abbrev data_chunk := List Nat

/-- Largest value of a `uint32_t`. -/
def max_uint32 : Nat := 0xFFFFFFFF

/-- Largest value of a `uint64_t`. -/
def max_uint64 : Nat := 0xFFFFFFFFFFFFFFFF

/-- Modelled from the spec: the little-endian writer of an unsigned integer
into a field of `width` bytes (the serializer of `utility/` is missing from
the headers). The value is reduced modulo `256 ^ width` by construction. -/
def to_little_endian : Nat → Nat → data_chunk
  | 0, _ => []
  | width + 1, value => (value % 256) :: to_little_endian width (value / 256)

/-- Modelled from the spec: the little-endian reader of an unsigned integer
from a sequence of bytes (the deserializer of `utility/` is missing from the
headers). Every element is read as one byte. -/
def from_little_endian : data_chunk → Nat
  | [] => 0
  | b :: rest => b % 256 + 256 * from_little_endian rest

/-- Modelled from the spec: `extend_data` of `utility/data.hpp`, which is
missing from the headers; it appends the second buffer to the first. -/
def extend_data (buffer other : data_chunk) : data_chunk :=
  buffer ++ other

/-- Modelled from the spec: `safe_unsigned<To>` of `math/limits.hpp`, which is
missing from the headers. The conversion fails with `PayloadTooLarge` when the
value exceeds the largest value of the target type and otherwise returns the
value unchanged. -/
def safe_unsigned (maximum value : Nat) : Except code Nat :=
  if value > maximum then Except.error code.PayloadTooLarge else Except.ok value

namespace message

/-- Width of the command field of a heading. -/
def command_size : Nat := 12

/-- Size of a serialized heading. -/
def heading_size : Nat := 24

/-- Modelled from the spec: the fixed-width string writer used for the command
field, missing from the headers. The name is followed by zero bytes and the
field is exactly `size` bytes wide. -/
def write_string (value : data_chunk) (size : Nat) : data_chunk :=
  (value ++ List.replicate size 0).take size

/-- Modelled from the spec: the `heading` class of `message/heading.hpp`,
which is missing from the headers: network magic, command name, payload
length and checksum. -/
structure heading where
  magic : Nat
  command : data_chunk
  payload_size : Nat
  checksum : Nat
  deriving DecidableEq

/-- Modelled from the spec: `heading::to_data`, missing from the headers. The
frame header is `magic:4 (LE) | command:12 (zero-padded) | length:4 (LE) |
checksum:4`. -/
def heading.to_data (h : heading) : data_chunk :=
  to_little_endian 4 h.magic ++ write_string h.command command_size ++
    to_little_endian 4 h.payload_size ++ to_little_endian 4 h.checksum

/-- A validly padded command field: the name is at most twelve bytes long and
every byte of it is a non-zero ASCII character. -/
def valid_command (name : data_chunk) : Prop :=
  name.length ≤ command_size ∧ ∀ b ∈ name, 0 < b ∧ b < 128

instance (name : data_chunk) : Decidable (valid_command name) := by
  unfold valid_command; infer_instance

/-- Modelled from the spec: `heading::from_data`, missing from the headers.
Decoding fails with `TruncatedInput` on fewer than 24 bytes and with
`InvalidCommand` when the stored name is not a recognized, validly padded
ASCII string. The set of recognized names is the parameter `recognized`. -/
def heading.from_data (recognized : data_chunk → Bool) (data : data_chunk) :
    Except code heading :=
  if data.length < heading_size then Except.error code.TruncatedInput
  else
    let field := (data.drop 4).take command_size
    let name := field.takeWhile (fun b => b ≠ 0)
    if valid_command name ∧ (∀ b ∈ field.drop name.length, b = 0) ∧
        recognized name = true then
      Except.ok
        { magic := from_little_endian (data.take 4)
          command := name
          payload_size := from_little_endian ((data.drop 16).take 4)
          checksum := from_little_endian ((data.drop 20).take 4) }
    else Except.error code.InvalidCommand

/-- Modelled from the spec: `bitcoin_hash` of `math/hash.hpp`, missing from
the headers: the double application of a cryptographic hash. The hash function
itself is the parameter `sha`. -/
def bitcoin_hash (sha : data_chunk → data_chunk) (data : data_chunk) : data_chunk :=
  sha (sha data)

/-- Modelled from the spec: `bitcoin_checksum` of `math/checksum.hpp`, missing
from the headers: the first four bytes of the double hash of the payload,
interpreted as a 32-bit integer. -/
def bitcoin_checksum (sha : data_chunk → data_chunk) (data : data_chunk) : Nat :=
  from_little_endian ((bitcoin_hash sha data).take 4)

/-- The interface `serialize` requires of its template parameter `Message`:
the static member `command` and the member function `to_data(version)`. -/
structure Message (M : Type) where
  command : data_chunk
  to_data : Nat → M → data_chunk

/-- Serialize a message object to the Bitcoin wire protocol encoding
(`message::serialize` of `messages.hpp`). -/
def serialize {M : Type} (ops : Message M) (sha : data_chunk → data_chunk)
    (version : Nat) (packet : M) (magic : Nat) : Except code data_chunk :=
  -- Serialize the payload (required for header size).
  let payload := ops.to_data version packet
  -- Construct the payload header.
  match safe_unsigned max_uint32 payload.length with
  | Except.error e => Except.error e
  | Except.ok size =>
    let head : heading :=
      { magic := magic
        command := ops.command
        payload_size := size
        checksum := bitcoin_checksum sha payload }
    -- Serialize header and copy the payload into a single message buffer.
    let message := head.to_data
    Except.ok (extend_data message payload)

/-- Protocol version at which BIP031 added the nonce field to `ping`
(table of `messages.hpp`: `ping v2 60001 BIP031 added nonce field`). -/
def bip31 : Nat := 60001

/-- Modelled from the spec: the `ping` message of `message/ping.hpp`, missing
from the headers; its only field is the nonce. -/
structure ping where
  nonce : Nat
  deriving DecidableEq

/-- Wire command name of `ping`: the ASCII bytes of the word ping. -/
def ping.command : data_chunk := [0x70, 0x69, 0x6E, 0x67]

/-- Modelled from the spec: `ping::to_data`, missing from the headers. The
nonce is carried, as eight little-endian bytes, only when the negotiated
version is at least 60001; below it the field is omitted entirely. -/
def ping.to_data (version : Nat) (p : ping) : data_chunk :=
  if version ≥ bip31 then to_little_endian 8 p.nonce else []

/-- The `ping` class seen through the interface `serialize` requires. -/
def ping.ops : Message ping :=
  { command := ping.command, to_data := ping.to_data }

/-- Modelled from the spec: `variable_uint_size`, declared in `messages.hpp`
and defined in a file missing from the headers: the byte width of the compact
size encoding of a value. -/
def variable_uint_size (value : Nat) : Nat :=
  if value < 0xFD then 1
  else if value ≤ 0xFFFF then 3
  else if value ≤ 0xFFFFFFFF then 5
  else 9

/-- Modelled from the spec: `encode_size` (section 4.1), missing from the
headers: the compact size encoding of an unsigned 64-bit count. -/
def encode_size (n : Nat) : data_chunk :=
  if n < 0xFD then [n]
  else if n ≤ 0xFFFF then 0xFD :: to_little_endian 2 n
  else if n ≤ 0xFFFFFFFF then 0xFE :: to_little_endian 4 n
  else 0xFF :: to_little_endian 8 n

/-- Modelled from the spec: `decode_size` (section 4.1), missing from the
headers. It returns the decoded value and the number of bytes consumed, and
fails with `TruncatedInput` on a buffer too short to hold the declared
width. -/
def decode_size (data : data_chunk) : Except code (Nat × Nat) :=
  match data with
  | [] => Except.error code.TruncatedInput
  | b :: rest =>
    let marker := b % 256
    if marker < 0xFD then Except.ok (marker, 1)
    else if marker = 0xFD then
      if rest.length < 2 then Except.error code.TruncatedInput
      else Except.ok (from_little_endian (rest.take 2), 3)
    else if marker = 0xFE then
      if rest.length < 4 then Except.error code.TruncatedInput
      else Except.ok (from_little_endian (rest.take 4), 5)
    else
      if rest.length < 8 then Except.error code.TruncatedInput
      else Except.ok (from_little_endian (rest.take 8), 9)

/-- Minimum protocol version of `getheaders` (table of `messages.hpp`:
`getheaders v3 31800`, and `Minimum conditional protocol version: 31800`). -/
def get_headers.version_minimum : Nat := 31800

/-- Modelled from the spec: `get_headers::from_data`, missing from the
headers. Decoding a message that is not available at the negotiated version
fails with `InsufficientVersion`; otherwise the payload is parsed. The payload
shape of `get_headers` is not given, so its parser is the parameter
`parse`. -/
def get_headers.from_data {α : Type} (parse : data_chunk → Except code α)
    (version : Nat) (data : data_chunk) : Except code α :=
  if version < get_headers.version_minimum then
    Except.error code.InsufficientVersion
  else parse data

end message

namespace chain

/-- Modelled from the spec: `output_point` of `chain/output_point.hpp`,
missing from the headers: a transaction hash and an output index. -/
structure output_point where
  hash : data_chunk
  index : Nat
  deriving DecidableEq

/-- Modelled from the spec: `output_info` of `chain/output_point.hpp`, missing
from the headers: an unspent outpoint and its value. -/
structure output_info where
  point : output_point
  value : Nat
  deriving DecidableEq

/-- Modelled from the spec: `points_info` of `chain/output_point.hpp`, missing
from the headers: the selected outpoints and the change of the spend. -/
structure points_info where
  points : List output_point
  change : Nat
  deriving DecidableEq

end chain

namespace wallet

open chain

/-- The selection algorithms of `select_outputs` (`select_outputs.hpp`). -/
inductive algorithm where
  | greedy
  | individual
  deriving DecidableEq

/-- First element of least value of a list, if any (the behaviour of
`std::min_element`: among equal values the earliest one is kept). -/
def min_element : List output_info → Option output_info
  | [] => none
  | u :: rest =>
    match min_element rest with
    | none => some u
    | some m => if m.value < u.value then some m else some u

/-- Shortest run of leading outputs whose values, added to `sum`, reach
`minimum_value`, with the change that remains; `none` when they do not reach
it. -/
def accumulate (minimum_value : Nat) :
    List output_info → Nat → Option (List output_point × Nat)
  | [], _ => none
  | u :: rest, sum =>
    if sum + u.value ≥ minimum_value then
      some ([u.point], sum + u.value - minimum_value)
    else
      match accumulate minimum_value rest (sum + u.value) with
      | none => none
      | some (points, change) => some (u.point :: points, change)

/-- Modelled from the spec: the greedy algorithm of `select_outputs::select`,
which is declared in `select_outputs.hpp` and defined in a file missing from
the headers; modelled from the algorithm summary of the declaration. It
returns the first unspent output that is the minimum greater than the
specified amount if any; if there are none, the largest outputs smaller than
the amount, in descending order, and the amount of change. The summary does
not say what is returned when those outputs do not add up to the amount; the
model then returns no points. -/
def select_outputs.greedy (unspent : List output_info) (minimum_value : Nat) :
    points_info :=
  match min_element (unspent.filter (fun u => u.value > minimum_value)) with
  | some m => { points := [m.point], change := m.value - minimum_value }
  | none =>
    let lesser := (unspent.filter (fun u => u.value < minimum_value)).insertionSort
      (fun a b => a.value ≥ b.value)
    match accumulate minimum_value lesser 0 with
    | some (points, change) => { points := points, change := change }
    | none => { points := [], change := 0 }

/-- Modelled from the spec: the individual algorithm of
`select_outputs::select`, defined in a file missing from the headers; modelled
from the algorithm summary of the declaration. It returns the unspent outputs
that each satisfy the specified amount; the change is always 0. -/
def select_outputs.individual (unspent : List output_info) (minimum_value : Nat) :
    points_info :=
  { points := (unspent.filter (fun u => u.value ≥ minimum_value)).map
      (fun u => u.point)
    change := 0 }

/-- Modelled from the spec: `select_outputs::select`, declared in
`select_outputs.hpp` and defined in a file missing from the headers: select
outpoints for a spend from the unspent outputs list; the result includes the
amount of change remaining from the spend. -/
def select_outputs.select (unspent : List output_info) (minimum_value : Nat)
    (option : algorithm) : points_info :=
  match option with
  | algorithm.greedy => select_outputs.greedy unspent minimum_value
  | algorithm.individual => select_outputs.individual unspent minimum_value

end wallet

/-! ## Concrete inputs -/

namespace message

/-- A stand-in for the hash parameter on concrete inputs: thirty-two bytes
computed from the input. It is not a cryptographic hash. -/
def sample_sha (data : data_chunk) : data_chunk :=
  (List.range 32).map (fun i => data.foldl (fun acc b => (acc * 5 + b) % 256) (3 * i + 1))

/-- The ping message of the concrete scenario of section 8. -/
def sample_ping : ping := { nonce := 0x0102030405060708 }

/-- A message class whose payload is `2 ^ 32` zero bytes, one byte more than
the length field of a heading can hold. -/
def oversized : Message Unit :=
  { command := [0x74, 0x78], to_data := fun _ _ => List.replicate (2 ^ 32) 0 }

end message

namespace wallet

open chain

/-- Four unspent outputs, of value 5, 9, 7 and 7. -/
def sample_unspent : List output_info :=
  [{ point := { hash := [1], index := 0 }, value := 5 },
    { point := { hash := [2], index := 0 }, value := 9 },
    { point := { hash := [3], index := 0 }, value := 7 },
    { point := { hash := [4], index := 1 }, value := 7 }]

end wallet

end libbitcoin

namespace libbitcoin

/-! ## Little-endian fields -/

theorem to_little_endian_length (width value : Nat) :
    (to_little_endian width value).length = width := by
  induction width generalizing value with
  | zero => rfl
  | succ w ih => simp [to_little_endian, ih]

theorem to_little_endian_lt (width value : Nat) :
    ∀ b ∈ to_little_endian width value, b < 256 := by
  induction width generalizing value with
  | zero => simp [to_little_endian]
  | succ w ih =>
    intro b hb
    simp only [to_little_endian, List.mem_cons] at hb
    rcases hb with rfl | hb
    · exact Nat.mod_lt _ (by norm_num)
    · exact ih _ b hb

theorem from_to_little_endian (width value : Nat) :
    from_little_endian (to_little_endian width value) = value % 256 ^ width := by
  induction width generalizing value with
  | zero => simp [to_little_endian, from_little_endian, Nat.mod_one]
  | succ w ih =>
    simp only [to_little_endian, from_little_endian, ih, Nat.mod_mod]
    rw [pow_succ, Nat.mul_comm (256 ^ w) 256, Nat.mod_mul]

theorem from_to_little_endian_of_lt (width value : Nat) (h : value < 256 ^ width) :
    from_little_endian (to_little_endian width value) = value := by
  rw [from_to_little_endian, Nat.mod_eq_of_lt h]

theorem from_little_endian_lt (data : data_chunk) :
    from_little_endian data < 256 ^ data.length := by
  induction data with
  | nil => simp [from_little_endian]
  | cons b rest ih =>
    simp only [from_little_endian, List.length_cons, pow_succ]
    have hb : b % 256 < 256 := Nat.mod_lt _ (by norm_num)
    omega

theorem to_from_little_endian (data : data_chunk) (h : ∀ b ∈ data, b < 256) :
    to_little_endian data.length (from_little_endian data) = data := by
  induction data with
  | nil => rfl
  | cons b rest ih =>
    have hb : b < 256 := h b (List.mem_cons_self _ _)
    have hrest : ∀ c ∈ rest, c < 256 := fun c hc => h c (List.mem_cons_of_mem _ hc)
    simp only [from_little_endian, List.length_cons, to_little_endian]
    have h1 : (b % 256 + 256 * from_little_endian rest) % 256 = b := by omega
    have h2 : (b % 256 + 256 * from_little_endian rest) / 256 = from_little_endian rest := by
      omega
    rw [h1, h2, ih hrest]

/-! ## Buffers split at a known length -/

theorem take_append_length {α : Type} (n : Nat) (front back : List α)
    (h : front.length = n) : (front ++ back).take n = front := by
  subst h; simp

theorem drop_append_length {α : Type} (n : Nat) (front back : List α)
    (h : front.length = n) : (front ++ back).drop n = back := by
  subst h; simp

namespace message

/-! ## The heading -/

theorem write_string_length (value : data_chunk) (size : Nat) :
    (write_string value size).length = size := by
  simp [write_string]

theorem write_string_of_le (value : data_chunk) (size : Nat) (h : value.length ≤ size) :
    write_string value size = value ++ List.replicate (size - value.length) 0 := by
  unfold write_string
  rw [List.take_append_eq_append_take, List.take_of_length_le h, List.take_replicate]
  congr 2
  omega

theorem heading_to_data_length (h : heading) : h.to_data.length = heading_size := by
  simp [heading.to_data, to_little_endian_length, write_string_length, heading_size,
    command_size]

theorem heading_to_data_take_magic (h : heading) :
    h.to_data.take 4 = to_little_endian 4 h.magic := by
  unfold heading.to_data
  rw [List.append_assoc, List.append_assoc]
  exact take_append_length 4 _ _ (to_little_endian_length 4 _)

theorem heading_to_data_drop_magic (h : heading) :
    h.to_data.drop 4 = write_string h.command command_size ++
      to_little_endian 4 h.payload_size ++ to_little_endian 4 h.checksum := by
  unfold heading.to_data
  rw [List.append_assoc, List.append_assoc, List.append_assoc]
  exact drop_append_length 4 _ _ (to_little_endian_length 4 _)

theorem heading_to_data_command (h : heading) :
    (h.to_data.drop 4).take command_size = write_string h.command command_size := by
  rw [heading_to_data_drop_magic, List.append_assoc]
  exact take_append_length _ _ _ (write_string_length _ _)

theorem heading_to_data_payload_size (h : heading) :
    (h.to_data.drop 16).take 4 = to_little_endian 4 h.payload_size := by
  unfold heading.to_data
  rw [List.append_assoc, drop_append_length 16 _ _ (by
    simp [to_little_endian_length, write_string_length, command_size])]
  exact take_append_length 4 _ _ (to_little_endian_length 4 _)

theorem heading_to_data_checksum (h : heading) :
    (h.to_data.drop 20).take 4 = to_little_endian 4 h.checksum := by
  unfold heading.to_data
  rw [drop_append_length 20 _ _ (by
    simp [to_little_endian_length, write_string_length, command_size])]
  exact List.take_of_length_le (by simp [to_little_endian_length])

theorem takeWhile_name (name : data_chunk) (k : Nat) (h : ∀ b ∈ name, 0 < b) :
    (name ++ List.replicate k 0).takeWhile (fun b => decide (b ≠ 0)) = name := by
  induction name with
  | nil =>
    cases k with
    | zero => rfl
    | succ k => simp [List.replicate_succ]
  | cons b rest ih =>
    have hb : 0 < b := h b (List.mem_cons_self _ _)
    have hne : b ≠ 0 := by omega
    simp only [List.cons_append]
    rw [List.takeWhile_cons_of_pos (by simpa using hne)]
    rw [ih (fun c hc => h c (List.mem_cons_of_mem _ hc))]

theorem bitcoin_checksum_lt (sha : data_chunk → data_chunk) (data : data_chunk) :
    bitcoin_checksum sha data < 256 ^ 4 := by
  unfold bitcoin_checksum
  refine lt_of_lt_of_le (from_little_endian_lt _) ?_
  exact Nat.pow_le_pow_right (by norm_num) (by simp)

theorem heading_from_to_data (recognized : data_chunk → Bool) (h : heading)
    (hcmd : valid_command h.command) (hrec : recognized h.command = true) :
    heading.from_data recognized h.to_data = Except.ok
      { magic := h.magic % 256 ^ 4
        command := h.command
        payload_size := h.payload_size % 256 ^ 4
        checksum := h.checksum % 256 ^ 4 } := by
  have hname : ((h.to_data.drop 4).take command_size).takeWhile
      (fun b => decide (b ≠ 0)) = h.command := by
    rw [heading_to_data_command, write_string_of_le _ _ hcmd.1]
    exact takeWhile_name _ _ (fun b hb => (hcmd.2 b hb).1)
  unfold heading.from_data
  rw [if_neg (by rw [heading_to_data_length]; exact Nat.lt_irrefl _)]
  simp only [hname]
  rw [if_pos]
  · rw [heading_to_data_take_magic, heading_to_data_payload_size,
      heading_to_data_checksum, from_to_little_endian, from_to_little_endian,
      from_to_little_endian]
  · refine ⟨hcmd, ?_, hrec⟩
    rw [heading_to_data_command, write_string_of_le _ _ hcmd.1,
      drop_append_length _ _ _ rfl]
    intro b hb
    exact (List.mem_replicate.mp hb).2

/-! ## serialize -/

theorem serialize_ok_iff {M : Type} (ops : Message M) (sha : data_chunk → data_chunk)
    (version : Nat) (packet : M) (magic : Nat) (buffer : data_chunk) :
    serialize ops sha version packet magic = Except.ok buffer ↔
      (ops.to_data version packet).length ≤ max_uint32 ∧
      buffer = heading.to_data
        { magic := magic
          command := ops.command
          payload_size := (ops.to_data version packet).length
          checksum := bitcoin_checksum sha (ops.to_data version packet) } ++
        ops.to_data version packet := by
  unfold serialize safe_unsigned extend_data
  by_cases hgt : (ops.to_data version packet).length > max_uint32
  · simp only [hgt, if_true]
    constructor
    · intro h; cases h
    · intro h; omega
  · simp only [hgt, if_false]
    constructor
    · intro h
      injection h with h
      exact ⟨by omega, h.symm⟩
    · intro h
      rw [h.2]

theorem serialize_error_iff {M : Type} (ops : Message M) (sha : data_chunk → data_chunk)
    (version : Nat) (packet : M) (magic : Nat) (e : code) :
    serialize ops sha version packet magic = Except.error e ↔
      e = code.PayloadTooLarge ∧ (ops.to_data version packet).length > max_uint32 := by
  unfold serialize safe_unsigned extend_data
  by_cases hgt : (ops.to_data version packet).length > max_uint32
  · simp only [hgt, if_true]
    constructor
    · intro h
      injection h with h
      exact ⟨h.symm, trivial⟩
    · intro h
      rw [h.1]
  · simp only [hgt, if_false]
    constructor
    · intro h; cases h
    · intro h; exact absurd h.2 (by simp)

/-! ## Claims about serialize -/

/-- C1: whenever `serialize` succeeds, the returned buffer is the serialized
heading built from the magic, the command of the message class, the payload
length (which fits a `uint32_t`, so the conversion keeps it) and the checksum
of the payload, followed by the payload `message.to_data(version)`. Nothing
stands before the heading, between heading and payload, or after the
payload: the heading is a prefix of the buffer and what remains after it is
exactly the payload. -/
theorem serialize_is_heading_then_payload {M : Type} (ops : Message M)
    (sha : data_chunk → data_chunk) (version : Nat) (packet : M) (magic : Nat)
    (buffer : data_chunk)
    (h : serialize ops sha version packet magic = Except.ok buffer) :
    buffer = heading.to_data
        { magic := magic
          command := ops.command
          payload_size := (ops.to_data version packet).length
          checksum := bitcoin_checksum sha (ops.to_data version packet) } ++
        ops.to_data version packet ∧
      (ops.to_data version packet).length % 2 ^ 32 = (ops.to_data version packet).length ∧
      buffer.take heading_size = heading.to_data
        { magic := magic
          command := ops.command
          payload_size := (ops.to_data version packet).length
          checksum := bitcoin_checksum sha (ops.to_data version packet) } ∧
      buffer.drop heading_size = ops.to_data version packet ∧
      buffer.length = heading_size + (ops.to_data version packet).length := by
  obtain ⟨hle, hbuf⟩ := (serialize_ok_iff ops sha version packet magic buffer).mp h
  refine ⟨hbuf, ?_, ?_, ?_, ?_⟩
  · exact Nat.mod_eq_of_lt (by unfold max_uint32 at hle; omega)
  · rw [hbuf]; exact take_append_length _ _ _ (heading_to_data_length _)
  · rw [hbuf]; exact drop_append_length _ _ _ (heading_to_data_length _)
  · rw [hbuf, List.length_append, heading_to_data_length]

/-- Witness of C1: the ping message of the concrete scenario, serialized at
version 60001. -/
theorem serialize_is_heading_then_payload_witness :
    serialize ping.ops sample_sha 60001 sample_ping 0xD9B4BEF9 = Except.ok
        [0xF9, 0xBE, 0xB4, 0xD9, 0x70, 0x69, 0x6E, 0x67, 0, 0, 0, 0, 0, 0, 0, 0,
          8, 0, 0, 0, 177, 52, 183, 58, 8, 7, 6, 5, 4, 3, 2, 1] ∧
      ([0xF9, 0xBE, 0xB4, 0xD9, 0x70, 0x69, 0x6E, 0x67, 0, 0, 0, 0, 0, 0, 0, 0,
          8, 0, 0, 0, 177, 52, 183, 58, 8, 7, 6, 5, 4, 3, 2, 1] =
        heading.to_data
          { magic := 0xD9B4BEF9
            command := ping.ops.command
            payload_size := (ping.ops.to_data 60001 sample_ping).length
            checksum := bitcoin_checksum sample_sha (ping.ops.to_data 60001 sample_ping) } ++
          ping.ops.to_data 60001 sample_ping) :=
  ⟨rfl, (serialize_is_heading_then_payload ping.ops sample_sha 60001 sample_ping
    0xD9B4BEF9 _ rfl).1⟩

/-- C2: whenever `serialize` succeeds (an empty payload included), the buffer
is 24 bytes longer than what remains after byte 24, the length field stored
in bytes 16 to 19 equals the byte length of the remaining bytes and the
checksum field stored in bytes 20 to 23 equals the checksum of the remaining
bytes; and for a message class whose command is a recognized, validly padded
name, decoding the first 24 bytes as a heading succeeds with these two
fields. -/
theorem serialize_split_heading_matches {M : Type} (ops : Message M)
    (sha : data_chunk → data_chunk) (version : Nat) (packet : M) (magic : Nat)
    (buffer : data_chunk)
    (h : serialize ops sha version packet magic = Except.ok buffer) :
    buffer.length = 24 + (buffer.drop 24).length ∧
      from_little_endian (((buffer.take 24).drop 16).take 4) = (buffer.drop 24).length ∧
      from_little_endian (((buffer.take 24).drop 20).take 4) =
        bitcoin_checksum sha (buffer.drop 24) ∧
      ∀ recognized : data_chunk → Bool,
        valid_command ops.command → recognized ops.command = true →
        ∃ head : heading,
          heading.from_data recognized (buffer.take 24) = Except.ok head ∧
          head.payload_size = (buffer.drop 24).length ∧
          head.checksum = bitcoin_checksum sha (buffer.drop 24) := by
  obtain ⟨hle, hbuf⟩ := (serialize_ok_iff ops sha version packet magic buffer).mp h
  have htake : buffer.take 24 = heading.to_data
      { magic := magic
        command := ops.command
        payload_size := (ops.to_data version packet).length
        checksum := bitcoin_checksum sha (ops.to_data version packet) } := by
    rw [hbuf]; exact take_append_length _ _ _ (heading_to_data_length _)
  have hdrop : buffer.drop 24 = ops.to_data version packet := by
    rw [hbuf]; exact drop_append_length _ _ _ (heading_to_data_length _)
  have hsize : (ops.to_data version packet).length % 256 ^ 4 =
      (ops.to_data version packet).length :=
    Nat.mod_eq_of_lt (by unfold max_uint32 at hle; omega)
  have hsum : bitcoin_checksum sha (ops.to_data version packet) % 256 ^ 4 =
      bitcoin_checksum sha (ops.to_data version packet) :=
    Nat.mod_eq_of_lt (bitcoin_checksum_lt _ _)
  refine ⟨?_, ?_, ?_, ?_⟩
  · rw [hdrop, hbuf, List.length_append, heading_to_data_length]; rfl
  · rw [htake, hdrop, heading_to_data_payload_size, from_to_little_endian, hsize]
  · rw [htake, hdrop, heading_to_data_checksum, from_to_little_endian, hsum]
  · intro recognized hcmd hrec
    rw [htake, hdrop, heading_from_to_data recognized _ hcmd hrec]
    exact ⟨_, rfl, hsize, hsum⟩

/-- Witness of C2: a ping serialized at version 60000 has an empty payload;
the 24 bytes returned decode to a heading of length 0 whose checksum is the
checksum of the empty payload. -/
theorem serialize_split_heading_matches_witness :
    serialize ping.ops sample_sha 60000 sample_ping 0xD9B4BEF9 = Except.ok
        [0xF9, 0xBE, 0xB4, 0xD9, 0x70, 0x69, 0x6E, 0x67, 0, 0, 0, 0, 0, 0, 0, 0,
          0, 0, 0, 0, 49, 180, 55, 186] ∧
      valid_command ping.ops.command ∧
      ∃ head : heading,
        heading.from_data (fun name => decide (name = ping.command))
          (List.take 24 [0xF9, 0xBE, 0xB4, 0xD9, 0x70, 0x69, 0x6E, 0x67, 0, 0, 0, 0, 0, 0,
            0, 0, 0, 0, 0, 0, 49, 180, 55, 186]) = Except.ok head ∧
        head.payload_size = (List.drop 24 [0xF9, 0xBE, 0xB4, 0xD9, 0x70, 0x69, 0x6E, 0x67,
            0, 0, 0, 0, 0, 0, 0, 0, 0, 0, 0, 0, 49, 180, 55, 186]).length ∧
        head.checksum = bitcoin_checksum sample_sha (List.drop 24 [0xF9, 0xBE, 0xB4, 0xD9,
            0x70, 0x69, 0x6E, 0x67, 0, 0, 0, 0, 0, 0, 0, 0, 0, 0, 0, 0, 49, 180, 55, 186]) :=
  ⟨rfl, by decide,
    (serialize_split_heading_matches ping.ops sample_sha 60000 sample_ping 0xD9B4BEF9 _
      rfl).2.2.2 (fun name => decide (name = ping.command)) (by decide) (by decide)⟩

/-- C3: `serialize` fails with `PayloadTooLarge` exactly when the byte length
of `message.to_data(version)` is greater than 0xFFFFFFFF; it fails with no
other error, and a failure is not a buffer. For every payload length from 0
to 0xFFFFFFFF it succeeds, and the length field of the returned buffer reads
back as the payload length itself, not as a remainder modulo `2 ^ 32`. -/
theorem serialize_payload_too_large_iff {M : Type} (ops : Message M)
    (sha : data_chunk → data_chunk) (version : Nat) (packet : M) (magic : Nat) :
    (serialize ops sha version packet magic = Except.error code.PayloadTooLarge ↔
        (ops.to_data version packet).length > 0xFFFFFFFF) ∧
      (∀ e, serialize ops sha version packet magic = Except.error e →
        e = code.PayloadTooLarge ∧
        ∀ buffer, serialize ops sha version packet magic ≠ Except.ok buffer) ∧
      ((ops.to_data version packet).length ≤ 0xFFFFFFFF →
        ∃ buffer, serialize ops sha version packet magic = Except.ok buffer ∧
          buffer.length = 24 + (ops.to_data version packet).length ∧
          from_little_endian ((buffer.drop 16).take 4) =
            (ops.to_data version packet).length) := by
  refine ⟨?_, ?_, ?_⟩
  · rw [serialize_error_iff]
    simp [max_uint32]
  · intro e he
    refine ⟨((serialize_error_iff ops sha version packet magic e).mp he).1, ?_⟩
    intro buffer hb
    rw [he] at hb
    cases hb
  · intro hle
    refine ⟨_, (serialize_ok_iff ops sha version packet magic _).mpr ⟨hle, rfl⟩, ?_, ?_⟩
    · rw [List.length_append, heading_to_data_length]; rfl
    · rw [List.drop_append_of_le_length (by rw [heading_to_data_length]; decide),
        List.take_append_of_le_length (by
          rw [List.length_drop, heading_to_data_length]; decide),
        heading_to_data_payload_size, from_to_little_endian]
      show (ops.to_data version packet).length % 256 ^ 4 = _
      exact Nat.mod_eq_of_lt (by omega)

/-- Witness of C3: a payload of `2 ^ 32` bytes is refused with
`PayloadTooLarge`, and the eight-byte payload of a ping is accepted with the
length field reading 8. -/
theorem serialize_payload_too_large_iff_witness :
    serialize oversized sample_sha 70001 () 0xD9B4BEF9 =
        Except.error code.PayloadTooLarge ∧
      ∃ buffer, serialize ping.ops sample_sha 60001 sample_ping 0xD9B4BEF9 =
          Except.ok buffer ∧
        buffer.length = 24 + (ping.ops.to_data 60001 sample_ping).length ∧
        from_little_endian ((buffer.drop 16).take 4) =
          (ping.ops.to_data 60001 sample_ping).length :=
  ⟨(serialize_payload_too_large_iff oversized sample_sha 70001 () 0xD9B4BEF9).1.mpr
      (by
        show (List.replicate (2 ^ 32) 0).length > 0xFFFFFFFF
        rw [List.length_replicate]
        norm_num),
    (serialize_payload_too_large_iff ping.ops sample_sha 60001 sample_ping
      0xD9B4BEF9).2.2 (by decide)⟩

/-- C4: serializing a ping with nonce 0x0102030405060708 at version 60001
with magic 0xD9B4BEF9 returns exactly 32 bytes: the magic in little-endian
order (F9 BE B4 D9), the command field (the four letters of ping and eight
zero bytes), the length 8 as a little-endian 32-bit integer, the first four
bytes of the double hash of the eight nonce bytes, and the nonce as eight
little-endian bytes (08 07 06 05 04 03 02 01). The hash is any function that
returns at least four bytes on the nonce bytes. -/
theorem serialize_ping_scenario (sha : data_chunk → data_chunk)
    (hlen : 4 ≤ (bitcoin_hash sha [8, 7, 6, 5, 4, 3, 2, 1]).length)
    (hbyte : ∀ b ∈ bitcoin_hash sha [8, 7, 6, 5, 4, 3, 2, 1], b < 256) :
    serialize ping.ops sha 60001 { nonce := 0x0102030405060708 } 0xD9B4BEF9 =
        Except.ok ([0xF9, 0xBE, 0xB4, 0xD9] ++
          [0x70, 0x69, 0x6E, 0x67, 0, 0, 0, 0, 0, 0, 0, 0] ++ [8, 0, 0, 0] ++
          (bitcoin_hash sha [8, 7, 6, 5, 4, 3, 2, 1]).take 4 ++
          [8, 7, 6, 5, 4, 3, 2, 1]) ∧
      ([0xF9, 0xBE, 0xB4, 0xD9] ++
          [0x70, 0x69, 0x6E, 0x67, 0, 0, 0, 0, 0, 0, 0, 0] ++ [8, 0, 0, 0] ++
          (bitcoin_hash sha [8, 7, 6, 5, 4, 3, 2, 1]).take 4 ++
          [8, 7, 6, 5, 4, 3, 2, 1]).length = 32 := by
  have hpayload : ping.ops.to_data 60001 { nonce := 0x0102030405060708 } =
      [8, 7, 6, 5, 4, 3, 2, 1] := rfl
  have hl : ((bitcoin_hash sha [8, 7, 6, 5, 4, 3, 2, 1]).take 4).length = 4 := by
    rw [List.length_take]; omega
  have hsum : to_little_endian 4 (bitcoin_checksum sha [8, 7, 6, 5, 4, 3, 2, 1]) =
      (bitcoin_hash sha [8, 7, 6, 5, 4, 3, 2, 1]).take 4 := by
    have hround := to_from_little_endian ((bitcoin_hash sha [8, 7, 6, 5, 4, 3, 2, 1]).take 4)
      (fun b hb => hbyte b (List.mem_of_mem_take hb))
    rw [hl] at hround
    exact hround
  refine ⟨?_, ?_⟩
  · rw [serialize_ok_iff, hpayload]
    refine ⟨by decide, ?_⟩
    have hmagic : to_little_endian 4 0xD9B4BEF9 = [0xF9, 0xBE, 0xB4, 0xD9] := by decide
    have hname : write_string ping.ops.command command_size =
        [0x70, 0x69, 0x6E, 0x67, 0, 0, 0, 0, 0, 0, 0, 0] := by decide
    have hsize : to_little_endian 4 [8, 7, 6, 5, 4, 3, 2, 1].length = [8, 0, 0, 0] := by
      decide
    show _ = to_little_endian 4 0xD9B4BEF9 ++ write_string ping.ops.command command_size ++
      to_little_endian 4 [8, 7, 6, 5, 4, 3, 2, 1].length ++
      to_little_endian 4 (bitcoin_checksum sha [8, 7, 6, 5, 4, 3, 2, 1]) ++
      [8, 7, 6, 5, 4, 3, 2, 1]
    rw [hsum, hmagic, hname, hsize]
  · simp only [List.length_append, hl, List.length_cons, List.length_nil]

/-- Witness of C4: the scenario with the stand-in hash, whose double
application to the nonce bytes starts with the bytes 177, 52, 183, 58. -/
theorem serialize_ping_scenario_witness :
    4 ≤ (bitcoin_hash sample_sha [8, 7, 6, 5, 4, 3, 2, 1]).length ∧
      serialize ping.ops sample_sha 60001 { nonce := 0x0102030405060708 } 0xD9B4BEF9 =
        Except.ok ([0xF9, 0xBE, 0xB4, 0xD9] ++
          [0x70, 0x69, 0x6E, 0x67, 0, 0, 0, 0, 0, 0, 0, 0] ++ [8, 0, 0, 0] ++
          (bitcoin_hash sample_sha [8, 7, 6, 5, 4, 3, 2, 1]).take 4 ++
          [8, 7, 6, 5, 4, 3, 2, 1]) :=
  ⟨by decide, (serialize_ping_scenario sample_sha (by decide) (by decide)).1⟩

/-- C10: two successful serializations of the same message at the same
version under two magic values have the same length and agree on every byte
from offset 4 onward (command, length, checksum and payload do not depend on
the magic); their first four bytes are the little-endian bytes of the
respective magic, and the buffers are equal when the magic values are. -/
theorem serialize_magic_only_first_four {M : Type} (ops : Message M)
    (sha : data_chunk → data_chunk) (version : Nat) (packet : M) (m1 m2 : Nat)
    (b1 b2 : data_chunk)
    (h1 : serialize ops sha version packet m1 = Except.ok b1)
    (h2 : serialize ops sha version packet m2 = Except.ok b2) :
    b1.length = b2.length ∧
      b1.drop 4 = b2.drop 4 ∧
      (∀ i, 4 ≤ i → b1[i]? = b2[i]?) ∧
      b1.take 4 = to_little_endian 4 m1 ∧
      b2.take 4 = to_little_endian 4 m2 ∧
      (m1 = m2 → b1 = b2) := by
  obtain ⟨_, hb1⟩ := (serialize_ok_iff ops sha version packet m1 b1).mp h1
  obtain ⟨_, hb2⟩ := (serialize_ok_iff ops sha version packet m2 b2).mp h2
  have hdrop : b1.drop 4 = b2.drop 4 := by
    rw [hb1, hb2,
      List.drop_append_of_le_length (by rw [heading_to_data_length]; decide),
      List.drop_append_of_le_length (by rw [heading_to_data_length]; decide),
      heading_to_data_drop_magic, heading_to_data_drop_magic]
  have htake : ∀ (m : Nat) (b : data_chunk),
      b = heading.to_data
        { magic := m
          command := ops.command
          payload_size := (ops.to_data version packet).length
          checksum := bitcoin_checksum sha (ops.to_data version packet) } ++
        ops.to_data version packet → b.take 4 = to_little_endian 4 m := by
    intro m b hb
    rw [hb, List.take_append_of_le_length (by rw [heading_to_data_length]; decide),
      heading_to_data_take_magic]
  refine ⟨?_, hdrop, ?_, htake m1 b1 hb1, htake m2 b2 hb2, ?_⟩
  · rw [hb1, hb2, List.length_append, List.length_append, heading_to_data_length,
      heading_to_data_length]
  · intro i hi
    have e1 : b1[i]? = (b1.drop 4)[i - 4]? := by
      rw [List.getElem?_drop]; congr 1; omega
    have e2 : b2[i]? = (b2.drop 4)[i - 4]? := by
      rw [List.getElem?_drop]; congr 1; omega
    rw [e1, e2, hdrop]
  · intro hm
    rw [hb1, hb2, hm]

/-- Witness of C10: the ping of the concrete scenario under the magic values
0xD9B4BEF9 and 0x0709110B. -/
theorem serialize_magic_only_first_four_witness :
    serialize ping.ops sample_sha 60001 sample_ping 0xD9B4BEF9 = Except.ok
        [0xF9, 0xBE, 0xB4, 0xD9, 0x70, 0x69, 0x6E, 0x67, 0, 0, 0, 0, 0, 0, 0, 0,
          8, 0, 0, 0, 177, 52, 183, 58, 8, 7, 6, 5, 4, 3, 2, 1] ∧
      serialize ping.ops sample_sha 60001 sample_ping 0x0709110B = Except.ok
        [0x0B, 0x11, 0x09, 0x07, 0x70, 0x69, 0x6E, 0x67, 0, 0, 0, 0, 0, 0, 0, 0,
          8, 0, 0, 0, 177, 52, 183, 58, 8, 7, 6, 5, 4, 3, 2, 1] ∧
      List.drop 4 [0xF9, 0xBE, 0xB4, 0xD9, 0x70, 0x69, 0x6E, 0x67, 0, 0, 0, 0, 0, 0, 0, 0,
          8, 0, 0, 0, 177, 52, 183, 58, 8, 7, 6, 5, 4, 3, 2, 1] =
        List.drop 4 [0x0B, 0x11, 0x09, 0x07, 0x70, 0x69, 0x6E, 0x67, 0, 0, 0, 0, 0, 0, 0, 0,
          8, 0, 0, 0, 177, 52, 183, 58, 8, 7, 6, 5, 4, 3, 2, 1] :=
  ⟨rfl, rfl,
    (serialize_magic_only_first_four ping.ops sample_sha 60001 sample_ping 0xD9B4BEF9
      0x0709110B _ _ rfl rfl).2.1⟩

/-! ## Compact sizes -/

theorem decode_size_marker_fd (body rest : data_chunk) (h : body.length = 2) :
    decode_size (0xFD :: (body ++ rest)) = Except.ok (from_little_endian body, 3) := by
  have hlen : ¬ (body ++ rest).length < 2 := by rw [List.length_append]; omega
  simp only [decode_size]
  rw [if_neg (by decide), if_pos (by decide), if_neg hlen, take_append_length 2 _ _ h]

theorem decode_size_marker_fe (body rest : data_chunk) (h : body.length = 4) :
    decode_size (0xFE :: (body ++ rest)) = Except.ok (from_little_endian body, 5) := by
  have hlen : ¬ (body ++ rest).length < 4 := by rw [List.length_append]; omega
  simp only [decode_size]
  rw [if_neg (by decide), if_neg (by decide), if_pos (by decide), if_neg hlen,
    take_append_length 4 _ _ h]

theorem decode_size_marker_ff (body rest : data_chunk) (h : body.length = 8) :
    decode_size (0xFF :: (body ++ rest)) = Except.ok (from_little_endian body, 9) := by
  have hlen : ¬ (body ++ rest).length < 8 := by rw [List.length_append]; omega
  simp only [decode_size]
  rw [if_neg (by decide), if_neg (by decide), if_neg (by decide), if_neg hlen,
    take_append_length 8 _ _ h]

theorem encode_size_length (n : Nat) :
    (encode_size n).length = variable_uint_size n := by
  unfold variable_uint_size encode_size
  split_ifs <;> simp [to_little_endian_length]

/-- C5: `variable_uint_size` is the byte width of the compact size encoding:
1 exactly when the value is below 0xFD, 3 exactly when it lies between 0xFD
and 0xFFFF, 5 exactly when it lies between 0x10000 and 0xFFFFFFFF, and 9
exactly when it exceeds 0xFFFFFFFF; and it is the length of
`encode_size`. -/
theorem variable_uint_size_is_encoding_width (n : Nat) :
    (variable_uint_size n = 1 ↔ n < 0xFD) ∧
      (variable_uint_size n = 3 ↔ 0xFD ≤ n ∧ n ≤ 0xFFFF) ∧
      (variable_uint_size n = 5 ↔ 0x10000 ≤ n ∧ n ≤ 0xFFFFFFFF) ∧
      (variable_uint_size n = 9 ↔ n > 0xFFFFFFFF) ∧
      (encode_size n).length = variable_uint_size n := by
  refine ⟨?_, ?_, ?_, ?_, encode_size_length n⟩
  all_goals
    unfold variable_uint_size
    split_ifs <;> constructor <;> intro _ <;> omega

/-- C6: for every unsigned 64-bit value, decoding its compact size encoding
returns the value and reports that exactly `variable_uint_size` bytes were
consumed, which is the whole encoding; bytes that follow the encoding do not
change the result. -/
theorem decode_size_encode_size (n : Nat) (h : n ≤ max_uint64) :
    decode_size (encode_size n) = Except.ok (n, variable_uint_size n) ∧
      (encode_size n).length = variable_uint_size n ∧
      ∀ rest : data_chunk,
        decode_size (encode_size n ++ rest) = Except.ok (n, variable_uint_size n) := by
  have key : ∀ rest : data_chunk,
      decode_size (encode_size n ++ rest) = Except.ok (n, variable_uint_size n) := by
    intro rest
    unfold max_uint64 at h
    unfold variable_uint_size encode_size
    by_cases h1 : n < 0xFD
    · have hm : n % 256 = n := Nat.mod_eq_of_lt (by omega)
      have hm2 : n % 256 < 253 := by omega
      simp only [h1, if_true, List.cons_append, List.nil_append, decode_size, hm2, hm]
    · by_cases h2 : n ≤ 0xFFFF
      · simp only [h1, h2, if_true, if_false, List.cons_append]
        rw [decode_size_marker_fd _ rest (to_little_endian_length 2 n),
          from_to_little_endian_of_lt 2 n (by omega)]
      · by_cases h3 : n ≤ 0xFFFFFFFF
        · simp only [h1, h2, h3, if_true, if_false, List.cons_append]
          rw [decode_size_marker_fe _ rest (to_little_endian_length 4 n),
            from_to_little_endian_of_lt 4 n (by omega)]
        · simp only [h1, h2, h3, if_false, List.cons_append]
          rw [decode_size_marker_ff _ rest (to_little_endian_length 8 n),
            from_to_little_endian_of_lt 8 n (by omega)]
  refine ⟨?_, encode_size_length n, key⟩
  have := key []
  rwa [List.append_nil] at this

/-- Witness of C6: the round trip at the nine boundary values 0, 1, 252,
253, 65535, 65536, 2^32 - 1, 2^32 and 2^64 - 1. -/
theorem decode_size_encode_size_witness :
    (18446744073709551615 ≤ max_uint64) ∧
      decode_size (encode_size 0) = Except.ok (0, 1) ∧
      decode_size (encode_size 1) = Except.ok (1, 1) ∧
      decode_size (encode_size 252) = Except.ok (252, 1) ∧
      decode_size (encode_size 253) = Except.ok (253, 3) ∧
      decode_size (encode_size 65535) = Except.ok (65535, 3) ∧
      decode_size (encode_size 65536) = Except.ok (65536, 5) ∧
      decode_size (encode_size 4294967295) = Except.ok (4294967295, 5) ∧
      decode_size (encode_size 4294967296) = Except.ok (4294967296, 9) ∧
      decode_size (encode_size 18446744073709551615) =
        Except.ok (18446744073709551615, 9) :=
  ⟨by decide,
    (decode_size_encode_size 0 (by decide)).1,
    (decode_size_encode_size 1 (by decide)).1,
    (decode_size_encode_size 252 (by decide)).1,
    (decode_size_encode_size 253 (by decide)).1,
    (decode_size_encode_size 65535 (by decide)).1,
    (decode_size_encode_size 65536 (by decide)).1,
    (decode_size_encode_size 4294967295 (by decide)).1,
    (decode_size_encode_size 4294967296 (by decide)).1,
    (decode_size_encode_size 18446744073709551615 (by decide)).1⟩

/-! ## The version gate of get_headers -/

/-- C7: for every well-formed `get_headers` payload, decoding at negotiated
version 31799 fails with `InsufficientVersion` and decoding at 31800
succeeds; the gate is the minimum version 31800 of the table: every version
below it is refused and every version from it on is accepted. -/
theorem get_headers_version_gate {α : Type} (parse : data_chunk → Except code α)
    (data : data_chunk) (value : α) (h : parse data = Except.ok value) :
    get_headers.from_data parse 31799 data = Except.error code.InsufficientVersion ∧
      get_headers.from_data parse 31800 data = Except.ok value ∧
      get_headers.version_minimum = 31800 ∧
      (∀ version, version < 31800 →
        get_headers.from_data parse version data =
          Except.error code.InsufficientVersion) ∧
      (∀ version, 31800 ≤ version →
        get_headers.from_data parse version data = Except.ok value) := by
  refine ⟨?_, ?_, rfl, ?_, ?_⟩
  · simp [get_headers.from_data, get_headers.version_minimum]
  · simp [get_headers.from_data, get_headers.version_minimum, h]
  · intro version hv
    simp [get_headers.from_data, get_headers.version_minimum, hv]
  · intro version hv
    have : ¬ version < 31800 := by omega
    simp [get_headers.from_data, get_headers.version_minimum, this, h]

/-- Witness of C7: the gate in front of the compact-size decoder on a
one-byte payload. -/
theorem get_headers_version_gate_witness :
    decode_size [5] = Except.ok (5, 1) ∧
      get_headers.from_data decode_size 31799 [5] =
        Except.error code.InsufficientVersion ∧
      get_headers.from_data decode_size 31800 [5] = Except.ok (5, 1) :=
  ⟨rfl, (get_headers_version_gate decode_size [5] (5, 1) rfl).1,
    (get_headers_version_gate decode_size [5] (5, 1) rfl).2.1⟩

end message

namespace wallet

open chain

/-! ## Output selection -/

theorem min_element_eq_none (l : List output_info) :
    min_element l = none ↔ l = [] := by
  cases l with
  | nil => simp [min_element]
  | cons u rest =>
    simp only [min_element]
    cases min_element rest with
    | none => simp
    | some m => by_cases hm : m.value < u.value <;> simp [hm]

theorem min_element_filter_spec (p : output_info → Bool) (l : List output_info)
    (m : output_info) (h : min_element (l.filter p) = some m) :
    ∃ pre post, l = pre ++ m :: post ∧ p m = true ∧
      (∀ v ∈ pre, p v = true → m.value < v.value) ∧
      (∀ v ∈ post, p v = true → m.value ≤ v.value) := by
  induction l generalizing m with
  | nil => simp [min_element] at h
  | cons x xs ih =>
    by_cases hx : p x = true
    · rw [List.filter_cons_of_pos hx] at h
      simp only [min_element] at h
      cases hrest : min_element (xs.filter p) with
      | none =>
        rw [hrest] at h
        injection h with h
        subst h
        have hnil : xs.filter p = [] := (min_element_eq_none _).mp hrest
        refine ⟨[], xs, rfl, hx, by simp, ?_⟩
        intro v hv hpv
        have : v ∈ xs.filter p := List.mem_filter.mpr ⟨hv, hpv⟩
        rw [hnil] at this
        cases this
      | some m2 =>
        rw [hrest] at h
        obtain ⟨pre, post, hl, hpm, hpre, hpost⟩ := ih m2 hrest
        by_cases hlt : m2.value < x.value
        · simp only [hlt, if_true] at h
          injection h with h
          subst h
          refine ⟨x :: pre, post, by rw [hl]; rfl, hpm, ?_, hpost⟩
          intro v hv hpv
          rcases List.mem_cons.mp hv with rfl | hv
          · exact hlt
          · exact hpre v hv hpv
        · simp only [hlt, if_false] at h
          injection h with h
          subst h
          refine ⟨[], xs, rfl, hx, by simp, ?_⟩
          intro v hv hpv
          rw [hl] at hv
          rcases List.mem_append.mp hv with hv | hv
          · have := hpre v hv hpv
            omega
          · rcases List.mem_cons.mp hv with rfl | hv
            · omega
            · have := hpost v hv hpv
              omega
    · rw [List.filter_cons_of_neg hx] at h
      obtain ⟨pre, post, hl, hpm, hpre, hpost⟩ := ih m h
      refine ⟨x :: pre, post, by rw [hl]; rfl, hpm, ?_, hpost⟩
      intro v hv hpv
      rcases List.mem_cons.mp hv with rfl | hv
      · exact absurd hpv hx
      · exact hpre v hv hpv

/-- C8: when the unspent list contains an output whose value is greater than
the requested amount, the greedy selection returns exactly one outpoint, that
of an output `u` of the list with these properties: its value is greater than
the amount, every output before it that is greater than the amount has a
strictly larger value, and every output after it that is greater than the
amount has a value at least as large. So `u` is the first output of the list
whose value is the minimum among the outputs greater than the amount. -/
theorem select_greedy_first_minimum_greater (unspent : List output_info)
    (minimum_value : Nat) (h : ∃ u ∈ unspent, u.value > minimum_value) :
    ∃ pre u post, unspent = pre ++ u :: post ∧
      u.value > minimum_value ∧
      (∀ v ∈ pre, v.value > minimum_value → u.value < v.value) ∧
      (∀ v ∈ post, v.value > minimum_value → u.value ≤ v.value) ∧
      (select_outputs.select unspent minimum_value algorithm.greedy).points = [u.point] := by
  obtain ⟨w, hw, hwv⟩ := h
  have hne : unspent.filter (fun u => decide (u.value > minimum_value)) ≠ [] := by
    intro hnil
    have : w ∈ unspent.filter (fun u => decide (u.value > minimum_value)) :=
      List.mem_filter.mpr ⟨hw, by simpa using hwv⟩
    rw [hnil] at this
    cases this
  cases hmin : min_element (unspent.filter (fun u => decide (u.value > minimum_value))) with
  | none => exact absurd ((min_element_eq_none _).mp hmin) hne
  | some m =>
    obtain ⟨pre, post, hl, hpm, hpre, hpost⟩ :=
      min_element_filter_spec (fun u => decide (u.value > minimum_value)) unspent m hmin
    refine ⟨pre, m, post, hl, by simpa using hpm, ?_, ?_, ?_⟩
    · intro v hv hgt
      exact hpre v hv (by simpa using hgt)
    · intro v hv hgt
      exact hpost v hv (by simpa using hgt)
    · simp only [select_outputs.select, select_outputs.greedy, hmin]

/-- Witness of C8: of the outputs of value 5, 9, 7 and 7 the greedy selection
for the amount 5 returns the third, the first of the two outputs of value
7. -/
theorem select_greedy_first_minimum_greater_witness :
    (∃ u ∈ sample_unspent, u.value > 5) ∧
      (select_outputs.select sample_unspent 5 algorithm.greedy).points =
        [{ hash := [3], index := 0 }] ∧
      ∃ (pre : List output_info) (u : output_info) (post : List output_info),
        sample_unspent = pre ++ u :: post ∧
        u.value > 5 ∧
        (∀ v ∈ pre, v.value > 5 → u.value < v.value) ∧
        (∀ v ∈ post, v.value > 5 → u.value ≤ v.value) ∧
        (select_outputs.select sample_unspent 5 algorithm.greedy).points = [u.point] :=
  ⟨⟨{ point := { hash := [2], index := 0 }, value := 9 }, by decide, by decide⟩,
    by decide,
    select_greedy_first_minimum_greater sample_unspent 5
      ⟨{ point := { hash := [2], index := 0 }, value := 9 }, by decide, by decide⟩⟩

/-- C9: the individual selection returns exactly the outpoints of the unspent
outputs whose value satisfies the amount on its own, in list order: an
outpoint is returned if and only if it belongs to such an output. With amount
0 it returns the outpoints of all unspent outputs, and the change is 0. -/
theorem select_individual_outpoints (unspent : List output_info) (minimum_value : Nat) :
    (select_outputs.select unspent minimum_value algorithm.individual).points =
        (unspent.filter (fun u => decide (u.value ≥ minimum_value))).map
          (fun u => u.point) ∧
      (∀ p, p ∈ (select_outputs.select unspent minimum_value algorithm.individual).points ↔
        ∃ u ∈ unspent, u.value ≥ minimum_value ∧ u.point = p) ∧
      (select_outputs.select unspent 0 algorithm.individual).points =
        unspent.map (fun u => u.point) ∧
      (select_outputs.select unspent minimum_value algorithm.individual).change = 0 := by
  refine ⟨rfl, ?_, ?_, rfl⟩
  · intro p
    simp only [select_outputs.select, select_outputs.individual, List.mem_map,
      List.mem_filter, decide_eq_true_eq]
    constructor
    · rintro ⟨u, ⟨hu, hv⟩, hp⟩
      exact ⟨u, hu, hv, hp⟩
    · rintro ⟨u, hu, hv, hp⟩
      exact ⟨u, ⟨hu, hv⟩, hp⟩
  · simp [select_outputs.select, select_outputs.individual]

end wallet

end libbitcoin
